import Mathlib

/-!
Verification development for the RHAPSODY ABAC policy-mining pipeline
(`backend/rhapsody_algorithm.py`) and its serving-time policy evaluator
(`backend/policy_evaluator.py`).

Transactions and rules are modelled as finite sets of atom strings
(`attribute=value`); the canonical rule string used as a dictionary key in the
source is in bijection with the atom set, so maps keyed by canonical strings
are modelled as association lists keyed by atom sets.  Python floats are
modelled as exact rationals and Python `int()` truncation of a nonnegative
value as `Int.floor` followed by `Int.toNat`.
-/

namespace Rhapsody

/-- An atom is an `attribute=value` string. -/
abbrev Atom := String

/-- A transaction is the set of atoms derived from one row. -/
abbrev Transaction := Finset Atom

/-- A rule (itemset) is identified with its set of atoms. -/
abbrev Rule := Finset Atom

/-- Number of transactions in the log of which `s` is a subset
(the brute-force occurrence count). -/
def countSubset (txs : List Transaction) (s : Finset Atom) : Nat :=
  (txs.filter (fun t => decide (s ⊆ t))).length

/-- All atoms occurring anywhere in the transaction log
(the columns of the transaction encoding). -/
def vocabulary (txs : List Transaction) : Finset Atom :=
  txs.foldr (fun t acc => t ∪ acc) ∅

/-- Modelled from the spec: the external frequent-itemset miner
(`mlxtend.frequent_patterns.apriori`) is not part of the repository source;
per spec section 4.2 and the brute-force equivalence of section 8 it returns
every non-empty itemset over the vocabulary whose support fraction
`count / |transactions|` is at least `min_support`, paired with that support
fraction. -/
def freq_itemset_list (txs : List Transaction) (minSupport : ℚ) : List Rule :=
  (((vocabulary txs).sort (· ≤ ·)).sublists.map List.toFinset).filter
    (fun s => decide s.Nonempty &&
      decide (minSupport ≤ (countSubset txs s : ℚ) / (txs.length : ℚ)))

/-- The itemsets retained by the miner, paired with their support fractions,
continuing the model above. -/
def apriori (txs : List Transaction) (minSupport : ℚ) : List (Rule × ℚ) :=
  (freq_itemset_list txs minSupport).map
    (fun s => (s, (countSubset txs s : ℚ) / (txs.length : ℚ)))

/-- One step of the second full scan of `_stage1`: every rule whose atoms are
contained in the transaction gets its `nA` entry incremented. -/
def nAStep (t : Transaction) (acc : List (Rule × Nat)) : List (Rule × Nat) :=
  acc.map (fun p => if p.1 ⊆ t then (p.1, p.2 + 1) else p)

/-- The second full scan of `_stage1`: starting from all frequent rules at 0,
fold over the transaction log incrementing covered rules. -/
def nAScan (freq : List Rule) (txs : List Transaction) : List (Rule × Nat) :=
  txs.foldl (fun acc t => nAStep t acc) (freq.map (fun r => (r, 0)))

/-- Stage 1 of `RhapsodyAlgorithm` (`_stage1`), from the transaction list on:
mine frequent itemsets at `min_support = T / len(transactions)`, turn each into
a rule, record `nUP[rule] = int(support * len(transactions))`, and compute
`nA` by a second scan over the transactions.  Returns
`(freq_rules, nUP, nA)`; the maps are association lists, mirroring the
Python dicts keyed by the canonical rule string.

Note on arithmetic: this definition is the exact-arithmetic idealization —
`support * len(transactions)` is computed in ℚ, so `int(...)` recovers the
exact occurrence count.  The program stores `support` as an IEEE-754 binary64
double, under which `int(support * N)` can undercount; `fl53` and `nUP_float`
below model that float path faithfully and exhibit the discrepancy. -/
def stage1 (txs : List Transaction) (T : ℤ) :
    List Rule × List (Rule × Nat) × List (Rule × Nat) :=
  let freqItemsets := apriori txs ((T : ℚ) / (txs.length : ℚ))
  if freqItemsets.isEmpty then ([], [], [])
  else
    let freq_rules := freqItemsets.map Prod.fst
    let nUP := freqItemsets.map
      (fun p => (p.1, (Int.floor (p.2 * (txs.length : ℚ))).toNat))
    (freq_rules, nUP, nAScan freq_rules txs)

/-- `_proves_unreliability`: `r2` proves `r1` unreliable iff `r1 ⊆ r2`,
`nUP[r2] ≥ T` and `nUP[r2] / (nUP[r1] + nUP[r2]) < K`. -/
def proves_unreliability (nUP : Rule → Nat) (T : ℤ) (K : ℚ) (r1 r2 : Rule) :
    Bool :=
  if ¬ r1 ⊆ r2 then false
  else if (nUP r2 : ℤ) < T then false
  else decide ((nUP r2 : ℚ) / ((nUP r1 : ℚ) + (nUP r2 : ℚ)) < K)

/-- The `unrel_rules` set built by `_stage2`: rules proven unreliable by some
other frequent rule. -/
def unreliable_rules (freq : List Rule) (nUP : Rule → Nat) (T : ℤ) (K : ℚ) :
    List Rule :=
  freq.filter (fun r1 =>
    freq.any (fun r2 => decide (r1 ≠ r2) && proves_unreliability nUP T K r1 r2))

/-- Stage 2 of `RhapsodyAlgorithm` (`_stage2`): the frequent rules minus the
unreliable ones. -/
def stage2 (freq : List Rule) (nUP : Rule → Nat) (T : ℤ) (K : ℚ) :
    List Rule :=
  freq.filter (fun r => decide (r ∉ unreliable_rules freq nUP T K))

/-- `_are_equivalent`: equal `nUP` and a subset relation in either
direction. -/
def are_equivalent (nUP : Rule → Nat) (r1 r2 : Rule) : Bool :=
  if nUP r1 ≠ nUP r2 then false
  else decide (r1 ⊆ r2 ∨ r2 ⊆ r1)

/-- `_is_shorter`: strictly fewer atoms. -/
def is_shorter (r1 r2 : Rule) : Bool :=
  decide (r1.card < r2.card)

/-- The `subsumed` set built by `_stage3`: rules with an equivalent strictly
shorter counterpart among the reliable rules. -/
def subsumed_rules (rel : List Rule) (nUP : Rule → Nat) : List Rule :=
  rel.filter (fun r1 =>
    rel.any (fun r2 =>
      decide (r1 ≠ r2) && (are_equivalent nUP r1 r2 && is_shorter r2 r1)))

/-- The unsorted survivor list of `_stage3`. -/
def short_rules (rel : List Rule) (nUP : Rule → Nat) : List Rule :=
  rel.filter (fun r => decide (r ∉ subsumed_rules rel nUP))

/-- Stage 3 of `RhapsodyAlgorithm` (`_stage3`): drop subsumed rules, then
stably sort the survivors ascending by `nA` (Python `sorted` is stable;
`List.mergeSort` is its stable-sort counterpart). -/
def stage3 (rel : List Rule) (nUP nA : Rule → Nat) : List Rule :=
  (short_rules rel nUP).mergeSort (fun a b => decide (nA a ≤ nA b))

/-- Errors a mining run can surface.  `invalidInput` is the validation error
class the spec mandates; `zeroDivisionError` is Python's error for `T / 0`;
`valueErrorMinSupport` models the `ValueError` the external apriori
implementation documents for a non-positive `min_support`. -/
inductive RunError where
  | invalidInput
  | zeroDivisionError
  | valueErrorMinSupport
deriving DecidableEq, Repr

/-- `run_algorithm` from the transaction list on: no input validation is
performed; with an empty log the computation of
`min_support = T / len(self.transactions)` raises `ZeroDivisionError`; a
non-positive `min_support` is rejected inside the external miner; otherwise
stages 1-3 run to completion and `(final_rules, nUP, nA)` is returned. -/
def run_algorithm (txs : List Transaction) (T : ℤ) (K : ℚ) :
    Except RunError (List Rule × List (Rule × Nat) × List (Rule × Nat)) :=
  if txs.length = 0 then .error .zeroDivisionError
  else if (T : ℚ) / (txs.length : ℚ) ≤ 0 then .error .valueErrorMinSupport
  else
    let s1 := stage1 txs T
    let nUPf : Rule → Nat := fun r => (List.lookup r s1.2.1).getD 0
    let nAf : Rule → Nat := fun r => (List.lookup r s1.2.2).getD 0
    let rel := stage2 s1.1 nUPf T K
    .ok (stage3 rel nUPf nAf, s1.2.1, s1.2.2)

/-! ### Faithful binary64 model of the `nUP` float path

Line 143 of the source computes `nUP[rule] = int(row['support'] * N)` where
`support` is an IEEE-754 binary64 double equal to the correctly rounded value
of `count / N`, and the product `support * N` is again rounded to binary64
before `int()` truncates.  The following definitions model that rounding
exactly (round to nearest, ties to even, 53-bit significand; overflow and
subnormals are out of range for the values that occur). -/

/-- Round a rational to the nearest integer, ties to even (the IEEE-754
default rounding applied to significands). -/
def roundHalfEven (x : ℚ) : ℤ :=
  if Int.fract x < 1 / 2 then ⌊x⌋
  else if 1 / 2 < Int.fract x then ⌊x⌋ + 1
  else if ⌊x⌋ % 2 = 0 then ⌊x⌋ else ⌊x⌋ + 1

/-- Correctly rounded IEEE-754 binary64 value of a positive rational: scale
into `[2^52, 2^53)`, round the 53-bit significand to nearest (ties to even),
scale back.  Zero maps to zero. -/
def fl53 (q : ℚ) : ℚ :=
  if q = 0 then 0
  else (roundHalfEven (q / 2 ^ (Int.log 2 q - 52)) : ℚ) * 2 ^ (Int.log 2 q - 52)

/-- The value stored by `nUP[rule] = int(row['support'] * len(transactions))`
under faithful binary64 semantics: `support` is the double nearest
`count / N`, the product with `N` is rounded again, and `int()` truncates. -/
def nUP_float (count N : ℕ) : ℕ :=
  (⌊fl53 (fl53 ((count : ℚ) / (N : ℚ)) * (N : ℚ))⌋).toNat

/-- A 49-row transaction log in which the atom `a=1` occurs in exactly one
transaction: the input on which the float path of line 143 undercounts. -/
def failLog : List Transaction :=
  ({"a=1"} : Finset String) :: List.replicate 48 ({"b=2"} : Finset String)

/-! ### Loaded-data model for the Stage 1 side effect

`_stage1` executes `self.data['atoms'] = self.data.apply(create_atoms, axis=1)`
before mining, so the loaded dataframe is modelled explicitly: a cell is
missing (`NaN`), a text value, or the computed atom set. -/

/-- A dataframe cell: missing (`NaN`), a text value, or a stored atom set. -/
inductive CellVal where
  | null
  | str (s : String)
  | atomset (a : Finset String)
deriving DecidableEq

/-- The loaded data: a column list and one cell-valuation per row. -/
structure DataFrame where
  cols : List String
  rows : List (String → CellVal)

/-- `create_atoms` inside `_stage1`: one `col=value` atom per working column
whose cell is not missing. -/
def create_atoms (working_columns : List String) (row : String → CellVal) :
    Finset String :=
  (working_columns.filterMap (fun c =>
    match row c with
    | .str v => some (c ++ "=" ++ v)
    | _ => none)).toFinset

/-- The effect of `self.data['atoms'] = self.data.apply(create_atoms, axis=1)`
on the loaded data: every row gains an `atoms` cell, and the column list gains
`atoms` unless already present (pandas overwrites an existing column). -/
def stage1_data_update (working_columns : List String) (df : DataFrame) :
    DataFrame :=
  { cols := if "atoms" ∈ df.cols then df.cols else df.cols ++ ["atoms"]
    rows := df.rows.map (fun r => fun c =>
      if c = "atoms" then .atomset (create_atoms working_columns r) else r c) }

/-! ### Policy evaluator (`backend/policy_evaluator.py`) -/

/-- Python `str.split(sep)` on character lists for a non-empty separator:
scan left to right, cutting at each non-overlapping occurrence of `sep`.
The fuel argument makes the recursion structural; callers pass enough fuel
for the whole input. -/
def splitChars (sep : List Char) : Nat → List Char → List Char → List (List Char)
  | 0, cur, rest => [cur.reverse ++ rest]
  | fuel + 1, cur, rest =>
    if sep.isPrefixOf rest then
      cur.reverse :: splitChars sep fuel [] (rest.drop sep.length)
    else
      match rest with
      | [] => [cur.reverse]
      | c :: rs => splitChars sep fuel (c :: cur) rs

/-- Python `str.split(sep)` for a non-empty separator. -/
def stringSplitOn (s sep : String) : List String :=
  (splitChars sep.toList (s.toList.length + 1) [] s.toList).map
    (fun l => String.mk l)

/-- Python `str.strip()`: drop leading and trailing whitespace. -/
def stringStrip (s : String) : String :=
  String.mk
    (((s.toList.dropWhile Char.isWhitespace).reverse.dropWhile
      Char.isWhitespace).reverse)

/-- Overwriting insertion into an association list, mirroring Python dict
assignment `d[k] = v`. -/
def dictInsert (d : List (String × String)) (k v : String) :
    List (String × String) :=
  if d.any (fun p => decide (p.1 = k)) then
    d.map (fun p => if p.1 = k then (k, v) else p)
  else d ++ [(k, v)]

/-- `PolicyEvaluator.parse_rule`: split the rule on the conjunction separator;
every atom containing `=` contributes a binding of its stripped attribute to
its stripped value (splitting at the first `=`). -/
def parse_rule (rule : String) : List (String × String) :=
  (stringSplitOn rule " ∧ ").foldl (fun acc atom =>
    match stringSplitOn atom "=" with
    | [] => acc
    | [_] => acc
    | a :: rest =>
      dictInsert acc (stringStrip a) (stringStrip (String.intercalate "=" rest))) []

/-- `request.get(attr, '').strip()` for a request modelled as an association
list with unique keys. -/
def requestGet (request : List (String × String)) (attr : String) : String :=
  stringStrip ((List.lookup attr request).getD "")

/-- `PolicyEvaluator.rule_matches_request`: fail if some rule attribute has a
non-empty differing request value; otherwise require at least one rule
attribute whose request value is non-empty and equal. -/
def rule_matches_request (rule : String) (request : List (String × String)) :
    Bool :=
  let rule_attrs := parse_rule rule
  if rule_attrs.any (fun p =>
      decide (requestGet request p.1 ≠ "") &&
      decide (requestGet request p.1 ≠ p.2)) then
    false
  else
    0 < rule_attrs.countP (fun p =>
      decide (requestGet request p.1 ≠ "") &&
      decide (requestGet request p.1 = p.2))

/-- The evaluator state: the loaded rules and the attribute set extracted from
them. -/
structure PolicyEvaluator where
  rules : List String
  available_attributes : Finset String

/-- `PolicyEvaluator.load_rules`: store the rules and collect every attribute
occurring in a parsed rule. -/
def load_rules (rules : List String) : PolicyEvaluator :=
  { rules := rules
    available_attributes := rules.foldl
      (fun acc r => acc ∪ ((parse_rule r).map Prod.fst).toFinset) ∅ }

/-- The decision-relevant part of the dictionary returned by
`PolicyEvaluator.evaluate_request`. -/
structure EvalResult where
  granted : Bool
  matching_rule : Option String
deriving DecidableEq

/-- `PolicyEvaluator.evaluate_request`: deny when no rules are loaded or when
no available attribute is filled in; otherwise grant on the first matching
rule. -/
def evaluate_request (ev : PolicyEvaluator) (request : List (String × String)) :
    EvalResult :=
  if ev.rules.isEmpty then ⟨false, none⟩
  else if ¬ request.any (fun p =>
      decide (p.1 ∈ ev.available_attributes) &&
      decide (stringStrip p.2 ≠ "")) then
    ⟨false, none⟩
  else
    match ev.rules.find? (fun r => rule_matches_request r request) with
    | some r => ⟨true, some r⟩
    | none => ⟨false, none⟩

/-! ### Concrete rules for the spec scenarios -/

/-- The rule `{a=1}` of Scenario B. -/
def ruleA : Rule := {"a=1"}

/-- The rule `{a=1, b=2}` of Scenario B. -/
def ruleAB : Rule := {"a=1", "b=2"}

/-- The support map of Scenario B: `nUP[{a=1}] = 3`, `nUP[{a=1,b=2}] = 2`. -/
def scenB_nUP : Rule → Nat :=
  fun r => if r = ruleA then 3 else if r = ruleAB then 2 else 0

/-! ### Helper lemmas -/

/-- Looking up a key in an association list of the shape
`l.map (fun s => (s, g s))` yields `g` of the key. -/
theorem lookup_map_self {α β : Type} [DecidableEq α] (l : List α) (g : α → β)
    (r : α) (hr : r ∈ l) :
    List.lookup r (l.map (fun s => (s, g s))) = some (g r) := by
  induction l with
  | nil => cases hr
  | cons a l ih =>
    by_cases hra : r = a
    · subst hra
      simp [List.lookup]
    · rcases List.mem_cons.mp hr with h | h
      · exact absurd h hra
      · have hb : (r == a) = false := by simpa using hra
        simpa [List.lookup, hb] using ih h

/-- The subset-coverage count never exceeds the number of transactions. -/
theorem countSubset_le_length (txs : List Transaction) (s : Finset Atom) :
    countSubset txs s ≤ txs.length :=
  List.length_filter_le _ _

/-- Unfolding the coverage count over a cons. -/
theorem countSubset_cons (t : Transaction) (txs : List Transaction)
    (s : Finset Atom) :
    countSubset (t :: txs) s =
      if s ⊆ t then countSubset txs s + 1 else countSubset txs s := by
  by_cases hst : s ⊆ t
  · simp [countSubset, List.filter_cons, hst]
  · simp [countSubset, List.filter_cons, hst]

/-- Folding the per-transaction increment step over the whole log adds the
coverage count to every accumulator entry. -/
theorem foldl_nAStep (txs : List Transaction) (acc : List (Rule × Nat)) :
    txs.foldl (fun a t => nAStep t a) acc
      = acc.map (fun p => (p.1, p.2 + countSubset txs p.1)) := by
  induction txs generalizing acc with
  | nil =>
    simp [countSubset]
  | cons t ts ih =>
    rw [List.foldl_cons, ih, nAStep, List.map_map]
    refine List.map_congr_left (fun p _ => ?_)
    by_cases hpt : p.1 ⊆ t
    all_goals simp only [Function.comp_apply, hpt, if_true, if_false,
      ite_true, ite_false, countSubset_cons]
    all_goals exact Prod.ext rfl (by omega)

/-- The second scan of `_stage1` computes exactly the brute-force coverage
count for every frequent rule. -/
theorem nAScan_eq (freq : List Rule) (txs : List Transaction) :
    nAScan freq txs = freq.map (fun r => (r, countSubset txs r)) := by
  rw [nAScan, foldl_nAStep, List.map_map]
  simp [Function.comp]

/-- The frequent rules list is the retained-itemset list. -/
theorem apriori_map_fst (txs : List Transaction) (ms : ℚ) :
    (apriori txs ms).map Prod.fst = freq_itemset_list txs ms := by
  rw [apriori, List.map_map]
  simp [Function.comp_def]

/-- Post-processing the mined pairs into the `nUP` entries gives a map over
the retained-itemset list. -/
theorem apriori_map_floor (txs : List Transaction) (ms : ℚ) :
    (apriori txs ms).map
        (fun p => (p.1, (Int.floor (p.2 * (txs.length : ℚ))).toNat)) =
      (freq_itemset_list txs ms).map
        (fun s => (s, (Int.floor (((countSubset txs s : ℚ) / (txs.length : ℚ))
          * (txs.length : ℚ))).toNat)) := by
  rw [apriori, List.map_map]
  simp [Function.comp_def]

/-- Unfolding Stage 1 when the miner returned at least one itemset. -/
theorem stage1_of_not_isEmpty (txs : List Transaction) (T : ℤ)
    (hE : (apriori txs ((T : ℚ) / (txs.length : ℚ))).isEmpty = false) :
    stage1 txs T =
      ((apriori txs ((T : ℚ) / (txs.length : ℚ))).map Prod.fst,
       (apriori txs ((T : ℚ) / (txs.length : ℚ))).map
         (fun p => (p.1, (Int.floor (p.2 * (txs.length : ℚ))).toNat)),
       nAScan ((apriori txs ((T : ℚ) / (txs.length : ℚ))).map Prod.fst) txs) := by
  rw [stage1]
  simp only [hE, Bool.false_eq_true, if_false]

/-- Unfolding Stage 1 when the miner returned nothing. -/
theorem stage1_of_isEmpty (txs : List Transaction) (T : ℤ)
    (hE : (apriori txs ((T : ℚ) / (txs.length : ℚ))).isEmpty = true) :
    stage1 txs T = ([], [], []) := by
  rw [stage1]
  simp only [hE, if_true]

/-- A non-empty transaction log has non-zero rational length. -/
theorem length_cast_ne_zero {txs : List Transaction} (h : txs ≠ []) :
    (txs.length : ℚ) ≠ 0 := by
  have : txs.length ≠ 0 := fun hc => h (List.length_eq_zero.mp hc)
  exact_mod_cast Nat.cast_ne_zero.mpr this

/-- Under the exact-arithmetic idealization of `stage1`, the `nUP` association
list maps every frequent rule to its brute-force coverage count: with rational
arithmetic `int(support * len(transactions))` recovers the exact occurrence
count.  This is the behaviour the spec claims; the program's binary64 float
path can return less (see `nUP_float_one_fortynine` below). -/
theorem stage1_nUP_lookup (txs : List Transaction) (T : ℤ) (r : Rule)
    (h : txs ≠ []) (hr : r ∈ (stage1 txs T).1) :
    List.lookup r (stage1 txs T).2.1 = some (countSubset txs r) := by
  cases hE : (apriori txs ((T : ℚ) / (txs.length : ℚ))).isEmpty with
  | true =>
    rw [stage1_of_isEmpty txs T hE] at hr
    cases hr
  | false =>
    rw [stage1_of_not_isEmpty txs T hE, apriori_map_fst] at hr
    rw [stage1_of_not_isEmpty txs T hE]
    rw [show ((apriori txs ((T : ℚ) / (txs.length : ℚ))).map Prod.fst,
        (apriori txs ((T : ℚ) / (txs.length : ℚ))).map
          (fun p => (p.1, (Int.floor (p.2 * (txs.length : ℚ))).toNat)),
        nAScan ((apriori txs ((T : ℚ) / (txs.length : ℚ))).map Prod.fst) txs).2.1
      = (apriori txs ((T : ℚ) / (txs.length : ℚ))).map
          (fun p => (p.1, (Int.floor (p.2 * (txs.length : ℚ))).toNat)) from rfl]
    rw [apriori_map_floor]
    rw [lookup_map_self _ _ r hr]
    have hN := length_cast_ne_zero h
    rw [div_mul_cancel₀ _ hN, Int.floor_natCast, Int.toNat_natCast]

/-- The `nA` association list built by Stage 1 maps every frequent rule to its
brute-force coverage count. -/
theorem stage1_nA_lookup (txs : List Transaction) (T : ℤ) (r : Rule)
    (hr : r ∈ (stage1 txs T).1) :
    List.lookup r (stage1 txs T).2.2 = some (countSubset txs r) := by
  cases hE : (apriori txs ((T : ℚ) / (txs.length : ℚ))).isEmpty with
  | true =>
    rw [stage1_of_isEmpty txs T hE] at hr
    cases hr
  | false =>
    rw [stage1_of_not_isEmpty txs T hE, apriori_map_fst] at hr
    rw [stage1_of_not_isEmpty txs T hE]
    rw [show ((apriori txs ((T : ℚ) / (txs.length : ℚ))).map Prod.fst,
        (apriori txs ((T : ℚ) / (txs.length : ℚ))).map
          (fun p => (p.1, (Int.floor (p.2 * (txs.length : ℚ))).toNat)),
        nAScan ((apriori txs ((T : ℚ) / (txs.length : ℚ))).map Prod.fst) txs).2.2
      = nAScan ((apriori txs ((T : ℚ) / (txs.length : ℚ))).map Prod.fst) txs
      from rfl]
    rw [apriori_map_fst, nAScan_eq]
    exact lookup_map_self _ _ r hr

/-- Characterization of `Int.log` base 2 on positive rationals by bracketing
powers of two. -/
theorem int_log2_eq {r : ℚ} {e : ℤ} (hr : 0 < r) (h1 : (2 : ℚ) ^ e ≤ r)
    (h2 : r < (2 : ℚ) ^ (e + 1)) : Int.log 2 r = e := by
  have hb : 1 < 2 := Nat.one_lt_two
  have hc : ((2 : ℕ) : ℚ) = (2 : ℚ) := by norm_num
  have hle : e ≤ Int.log 2 r :=
    (Int.zpow_le_iff_le_log hb hr).mp (by rw [hc]; exact h1)
  have hlt : Int.log 2 r < e + 1 :=
    (Int.lt_zpow_iff_log_lt hb hr).mp (by rw [hc]; exact h2)
  omega

/-- The binary64 double nearest `1/49` is `5882252574524729 * 2^-58`, which is
strictly below `1/49`. -/
theorem fl53_inv49 : fl53 ((1 : ℚ) / 49)
    = (5882252574524729 : ℚ) * 2 ^ (-58 : ℤ) := by
  rw [fl53, if_neg (by norm_num)]
  have hlog : Int.log 2 ((1 : ℚ) / 49) = -6 :=
    int_log2_eq (by norm_num) (by norm_num) (by norm_num)
  rw [hlog]
  have he : (-6 : ℤ) - 52 = -58 := by norm_num
  rw [he]
  have hfl : ⌊((1 : ℚ) / 49) / 2 ^ (-58 : ℤ)⌋ = 5882252574524729 := by
    rw [Int.floor_eq_iff]
    constructor
    · norm_num
    · norm_num
  have hfr : Int.fract (((1 : ℚ) / 49) / 2 ^ (-58 : ℤ)) < 1 / 2 := by
    rw [Int.fract, hfl]
    norm_num
  rw [roundHalfEven, if_pos hfr, hfl]
  norm_num

/-- Multiplying the double nearest `1/49` by `49` and rounding to binary64
gives `9007199254740991 * 2^-53`, which is strictly below `1`. -/
theorem fl53_prod49 :
    fl53 ((5882252574524729 : ℚ) * 2 ^ (-58 : ℤ) * 49)
      = (9007199254740991 : ℚ) * 2 ^ (-53 : ℤ) := by
  rw [fl53, if_neg (by norm_num)]
  have hlog : Int.log 2 ((5882252574524729 : ℚ) * 2 ^ (-58 : ℤ) * 49) = -1 :=
    int_log2_eq (by norm_num) (by norm_num) (by norm_num)
  rw [hlog]
  have he : (-1 : ℤ) - 52 = -53 := by norm_num
  rw [he]
  have hfl : ⌊((5882252574524729 : ℚ) * 2 ^ (-58 : ℤ) * 49) / 2 ^ (-53 : ℤ)⌋
      = 9007199254740991 := by
    rw [Int.floor_eq_iff]
    constructor
    · norm_num
    · norm_num
  have hfr : Int.fract (((5882252574524729 : ℚ) * 2 ^ (-58 : ℤ) * 49)
      / 2 ^ (-53 : ℤ)) < 1 / 2 := by
    rw [Int.fract, hfl]
    norm_num
  rw [roundHalfEven, if_pos hfr, hfl]
  norm_num

/-- The float path of line 143 at count 1 of 49 transactions: `int` of the
binary64 value of `(1/49) * 49` is `0`, one less than the exact count. -/
theorem nUP_float_one_fortynine : nUP_float 1 49 = 0 := by
  rw [nUP_float]
  simp only [Nat.cast_one, Nat.cast_ofNat]
  rw [fl53_inv49, fl53_prod49]
  have hz : ⌊(9007199254740991 : ℚ) * 2 ^ (-53 : ℤ)⌋ = 0 := by
    rw [Int.floor_eq_iff]
    constructor
    · norm_num
    · norm_num
  rw [hz]
  rfl

/-- Coverage count over a replicated log. -/
theorem countSubset_replicate (n : ℕ) (t : Transaction) (s : Finset Atom) :
    countSubset (List.replicate n t) s = if s ⊆ t then n else 0 := by
  induction n with
  | zero => simp [countSubset]
  | succ n ih =>
    rw [List.replicate_succ, countSubset_cons, ih]
    by_cases h : s ⊆ t
    · simp [h]
    · simp [h]

/-- In the 49-row failing log the rule `{a=1}` covers exactly one
transaction. -/
theorem countSubset_failLog : countSubset failLog {"a=1"} = 1 := by
  rw [failLog, countSubset_cons, countSubset_replicate]
  have h1 : ({"a=1"} : Finset String) ⊆ {"a=1"} := Finset.Subset.refl _
  have h2 : ¬ ({"a=1"} : Finset String) ⊆ {"b=2"} := by decide
  simp [h1, h2]

/-- The failing log has 49 transactions. -/
theorem failLog_length : failLog.length = 49 := by
  simp [failLog]

/-! ### Claim theorems -/

/-- C2.  On the 49-transaction log `failLog` the rule `{a=1}` covers exactly
one transaction, yet `nUP[rule] = int(support * len(transactions))` evaluated
with faithful IEEE-754 binary64 semantics stores `0`: Stage 1's `nUP` does not
equal the brute-force count the claim demands. -/
theorem support_correctness_float_failure :
    countSubset failLog {"a=1"} = 1 ∧
    failLog.length = 49 ∧
    nUP_float (countSubset failLog {"a=1"}) failLog.length = 0 ∧
    nUP_float (countSubset failLog {"a=1"}) failLog.length
      ≠ countSubset failLog {"a=1"} := by
  refine ⟨countSubset_failLog, failLog_length, ?_, ?_⟩
  · rw [countSubset_failLog, failLog_length]
    exact nUP_float_one_fortynine
  · rw [countSubset_failLog, failLog_length, nUP_float_one_fortynine]
    decide

/-- C3.  On the same failing log the second full scan stores `nA = 1` for the
rule `{a=1}` (it counts with exact integer increments), while the
float-path `nUP` value is `0`: the two computations of the same
subset-coverage count disagree. -/
theorem nA_disagrees_with_float_nUP :
    List.lookup ({"a=1"} : Finset String) (nAScan [{"a=1"}] failLog)
        = some (countSubset failLog {"a=1"}) ∧
    countSubset failLog {"a=1"} = 1 ∧
    nUP_float (countSubset failLog {"a=1"}) failLog.length = 0 := by
  refine ⟨?_, countSubset_failLog, ?_⟩
  · rw [nAScan_eq]
    exact lookup_map_self _ _ _ (by simp)
  · rw [countSubset_failLog, failLog_length]
    exact nUP_float_one_fortynine

/-- Unfolding `_proves_unreliability` into its three conditions. -/
theorem proves_unreliability_iff (nUP : Rule → Nat) (T : ℤ) (K : ℚ)
    (r1 r2 : Rule) :
    proves_unreliability nUP T K r1 r2 = true ↔
      r1 ⊆ r2 ∧ T ≤ (nUP r2 : ℤ) ∧
        (nUP r2 : ℚ) / ((nUP r1 : ℚ) + (nUP r2 : ℚ)) < K := by
  rw [proves_unreliability]
  by_cases h1 : r1 ⊆ r2
  · by_cases h2 : (nUP r2 : ℤ) < T
    · simp [h1, h2, not_le.mpr h2]
    · simp [h1, h2, not_lt.mp h2]
  · simp [h1]

/-- Membership in the `unrel_rules` set of `_stage2`. -/
theorem mem_unreliable_rules_iff (freq : List Rule) (nUP : Rule → Nat)
    (T : ℤ) (K : ℚ) (r : Rule) :
    r ∈ unreliable_rules freq nUP T K ↔
      r ∈ freq ∧ ∃ r2 ∈ freq, r2 ≠ r ∧ r ⊆ r2 ∧ T ≤ (nUP r2 : ℤ) ∧
        (nUP r2 : ℚ) / ((nUP r : ℚ) + (nUP r2 : ℚ)) < K := by
  rw [unreliable_rules]
  simp only [List.mem_filter, List.any_eq_true, Bool.and_eq_true,
    decide_eq_true_eq, proves_unreliability_iff]
  constructor
  · rintro ⟨hrf, r2, hr2f, hne, hc⟩
    exact ⟨hrf, r2, hr2f, Ne.symm hne, hc⟩
  · rintro ⟨hrf, r2, hr2f, hne, hc⟩
    exact ⟨hrf, r2, hr2f, Ne.symm hne, hc⟩

/-- Membership in the Stage 2 output. -/
theorem mem_stage2_iff (freq : List Rule) (nUP : Rule → Nat) (T : ℤ) (K : ℚ)
    (r : Rule) :
    r ∈ stage2 freq nUP T K ↔
      r ∈ freq ∧ ¬ ∃ r2 ∈ freq, r2 ≠ r ∧ r ⊆ r2 ∧ T ≤ (nUP r2 : ℤ) ∧
        (nUP r2 : ℚ) / ((nUP r : ℚ) + (nUP r2 : ℚ)) < K := by
  rw [stage2]
  simp only [List.mem_filter, decide_eq_true_eq]
  constructor
  · rintro ⟨hrf, hnm⟩
    exact ⟨hrf, fun hex =>
      hnm ((mem_unreliable_rules_iff freq nUP T K r).mpr ⟨hrf, hex⟩)⟩
  · rintro ⟨hrf, hnex⟩
    exact ⟨hrf, fun hm =>
      hnex ((mem_unreliable_rules_iff freq nUP T K r).mp hm).2⟩

/-- Every Stage 2 survivor is a frequent rule. -/
theorem stage2_subset (freq : List Rule) (nUP : Rule → Nat) (T : ℤ) (K : ℚ)
    (r : Rule) (hr : r ∈ stage2 freq nUP T K) : r ∈ freq :=
  (List.mem_filter.mp hr).1

/-- Unfolding `_are_equivalent`. -/
theorem are_equivalent_iff (nUP : Rule → Nat) (r1 r2 : Rule) :
    are_equivalent nUP r1 r2 = true ↔
      nUP r1 = nUP r2 ∧ (r1 ⊆ r2 ∨ r2 ⊆ r1) := by
  rw [are_equivalent]
  by_cases h : nUP r1 = nUP r2
  · simp [h]
  · simp [h]

/-- Membership in the `subsumed` set of `_stage3`. -/
theorem mem_subsumed_rules_iff (rel : List Rule) (nUP : Rule → Nat)
    (r : Rule) :
    r ∈ subsumed_rules rel nUP ↔
      r ∈ rel ∧ ∃ r2 ∈ rel, r2 ≠ r ∧ nUP r = nUP r2 ∧
        (r ⊆ r2 ∨ r2 ⊆ r) ∧ r2.card < r.card := by
  rw [subsumed_rules]
  simp only [List.mem_filter, List.any_eq_true, Bool.and_eq_true,
    decide_eq_true_eq, are_equivalent_iff, is_shorter]
  constructor
  · rintro ⟨hrf, r2, hr2f, hne, ⟨heq, hsub⟩, hcard⟩
    exact ⟨hrf, r2, hr2f, Ne.symm hne, heq, hsub, hcard⟩
  · rintro ⟨hrf, r2, hr2f, hne, heq, hsub, hcard⟩
    exact ⟨hrf, r2, hr2f, Ne.symm hne, ⟨heq, hsub⟩, hcard⟩

/-- Membership in the Stage 3 output. -/
theorem mem_stage3_iff (rel : List Rule) (nUP nA : Rule → Nat) (r : Rule) :
    r ∈ stage3 rel nUP nA ↔
      r ∈ rel ∧ ¬ ∃ r2 ∈ rel, r2 ≠ r ∧ nUP r = nUP r2 ∧
        (r ⊆ r2 ∨ r2 ⊆ r) ∧ r2.card < r.card := by
  rw [stage3]
  rw [List.mem_mergeSort]
  rw [short_rules]
  simp only [List.mem_filter, decide_eq_true_eq]
  constructor
  · rintro ⟨hrf, hnm⟩
    exact ⟨hrf, fun hex =>
      hnm ((mem_subsumed_rules_iff rel nUP r).mpr ⟨hrf, hex⟩)⟩
  · rintro ⟨hrf, hnex⟩
    exact ⟨hrf, fun hm =>
      hnex ((mem_subsumed_rules_iff rel nUP r).mp hm).2⟩

/-- C4.  Stage 2 removes a rule exactly when some other frequent rule is a
refinement of it, meets the support threshold, and has confidence below `K`;
and in Scenario B the rule `{a=1}` is removed. -/
theorem stage2_removal_characterization :
    (∀ (freq : List Rule) (nUP : Rule → Nat) (T : ℤ) (K : ℚ) (r : Rule),
      r ∈ stage2 freq nUP T K ↔
        r ∈ freq ∧ ¬ ∃ r2 ∈ freq, r2 ≠ r ∧ r ⊆ r2 ∧ T ≤ (nUP r2 : ℤ) ∧
          (nUP r2 : ℚ) / ((nUP r : ℚ) + (nUP r2 : ℚ)) < K) ∧
    stage2 [ruleA, ruleAB] scenB_nUP 2 (4 / 5) = [ruleAB] := by
  refine ⟨mem_stage2_iff, ?_⟩
  have h2 : ruleA ⊆ ruleAB := by decide
  have h3 : ¬ ruleAB ⊆ ruleA := by decide
  have h4 : ({"a=1", "b=2"} : Finset String) ≠ {"a=1"} := by decide
  have h5 : ({"a=1"} : Finset String) ≠ {"a=1", "b=2"} := by decide
  simp only [stage2, unreliable_rules, proves_unreliability, scenB_nUP,
    List.filter_cons, List.filter_nil, List.any_cons, List.any_nil,
    ruleA, ruleAB]
  norm_num [h2, h3, h4, h5]

/-- C8.  Stage 2 is idempotent: filtering the already-reliable output against
itself removes no further rule. -/
theorem stage2_idempotent (freq : List Rule) (nUP : Rule → Nat) (T : ℤ)
    (K : ℚ) :
    stage2 (stage2 freq nUP T K) nUP T K = stage2 freq nUP T K := by
  conv_lhs => rw [stage2]
  apply List.filter_eq_self.mpr
  intro r hr
  rw [decide_eq_true_eq]
  intro hmem
  obtain ⟨-, r2, hr2R, hne, hcond⟩ :=
    (mem_unreliable_rules_iff _ nUP T K r).mp hmem
  exact ((mem_stage2_iff freq nUP T K r).mp hr).2
    ⟨r2, stage2_subset freq nUP T K r2 hr2R, hne, hcond⟩

/-- C5.  Stage 3 removes a reliable rule exactly when some other reliable rule
is equivalent to it (equal `nUP`, subset relation either way) and strictly
shorter; consequently within the final set no rule has a strictly shorter
equivalent counterpart. -/
theorem stage3_removal_characterization :
    (∀ (rel : List Rule) (nUP nA : Rule → Nat) (r : Rule),
      r ∈ stage3 rel nUP nA ↔
        r ∈ rel ∧ ¬ ∃ r2 ∈ rel, r2 ≠ r ∧ nUP r = nUP r2 ∧
          (r ⊆ r2 ∨ r2 ⊆ r) ∧ r2.card < r.card) ∧
    (∀ (rel : List Rule) (nUP nA : Rule → Nat) (r1 r2 : Rule),
      r1 ∈ stage3 rel nUP nA → r2 ∈ stage3 rel nUP nA →
      nUP r1 = nUP r2 → (r1 ⊆ r2 ∨ r2 ⊆ r1) → r1.card ≤ r2.card) := by
  refine ⟨fun rel nUP nA r => mem_stage3_iff rel nUP nA r, ?_⟩
  intro rel nUP nA r1 r2 h1 h2 heq hsub
  by_contra hlt
  have hne : r2 ≠ r1 := by
    intro hcontra
    exact hlt (hcontra ▸ le_rfl)
  have h2rel : r2 ∈ rel := ((mem_stage3_iff rel nUP nA r2).mp h2).1
  exact ((mem_stage3_iff rel nUP nA r1).mp h1).2
    ⟨r2, h2rel, hne, heq, hsub, not_le.mp hlt⟩

/-- Witness for the minimality part of C5 on the singleton reliable set
`[{a=1}]`. -/
theorem stage3_removal_characterization_witness :
    ruleA.card ≤ ruleA.card :=
  stage3_removal_characterization.2 [ruleA] (fun _ => 0) (fun _ => 0)
    ruleA ruleA
    (by simp [stage3, short_rules, subsumed_rules])
    (by simp [stage3, short_rules, subsumed_rules])
    rfl (Or.inl (Finset.Subset.refl _))

/-- The comparator of Stage 3's sort is transitive. -/
theorem nA_le_trans (nA : Rule → Nat) :
    ∀ a b c : Rule, decide (nA a ≤ nA b) = true →
      decide (nA b ≤ nA c) = true → decide (nA a ≤ nA c) = true := by
  intro a b c hab hbc
  simp only [decide_eq_true_eq] at hab hbc ⊢
  omega

/-- The comparator of Stage 3's sort is total. -/
theorem nA_le_total (nA : Rule → Nat) :
    ∀ a b : Rule, (decide (nA a ≤ nA b) || decide (nA b ≤ nA a)) = true := by
  intro a b
  rcases Nat.le_total (nA a) (nA b) with h | h
  · simp [h]
  · simp [h]

/-- C6.  The final rule list is sorted non-decreasing by `nA`; among rules
with equal `nA`, the relative order is the order of the unsorted survivor
list, which is itself a subsequence of the reliable rule list (stable sort by
discovery order). -/
theorem final_ordering_sorted_and_stable :
    (∀ (rel : List Rule) (nUP nA : Rule → Nat),
      (stage3 rel nUP nA).Pairwise (fun a b => nA a ≤ nA b)) ∧
    (∀ (rel : List Rule) (nUP nA : Rule → Nat) (v : ℕ),
      (stage3 rel nUP nA).filter (fun r => decide (nA r = v)) =
        (short_rules rel nUP).filter (fun r => decide (nA r = v))) ∧
    (∀ (rel : List Rule) (nUP : Rule → Nat),
      (short_rules rel nUP).Sublist rel) := by
  refine ⟨?_, ?_, ?_⟩
  · intro rel nUP nA
    have h := List.sorted_mergeSort (nA_le_trans nA) (nA_le_total nA)
      (short_rules rel nUP)
    rw [stage3]
    exact h.imp (fun hab => by simpa using hab)
  · intro rel nUP nA v
    have hfil : ((short_rules rel nUP).filter
        (fun r => decide (nA r = v))).Pairwise
        (fun a b => decide (nA a ≤ nA b) = true) := by
      apply List.pairwise_of_forall_mem_list
      intro a ha b hb
      have hav : nA a = v := by simpa using (List.mem_filter.mp ha).2
      have hbv : nA b = v := by simpa using (List.mem_filter.mp hb).2
      simp [hav, hbv]
    have hsub : ((short_rules rel nUP).filter
        (fun r => decide (nA r = v))).Sublist
        ((short_rules rel nUP).mergeSort (fun a b => decide (nA a ≤ nA b))) :=
      List.sublist_mergeSort (nA_le_trans nA) (nA_le_total nA) hfil
        (List.filter_sublist _)
    have hsub2 := hsub.filter (fun r => decide (nA r = v))
    rw [List.filter_filter] at hsub2
    simp only [Bool.and_self] at hsub2
    have hperm : (((short_rules rel nUP).mergeSort
        (fun a b => decide (nA a ≤ nA b))).filter
          (fun r => decide (nA r = v))).Perm
        ((short_rules rel nUP).filter (fun r => decide (nA r = v))) :=
      (List.mergeSort_perm (short_rules rel nUP) _).filter _
    rw [stage3]
    exact (hsub2.eq_of_length hperm.length_eq.symm).symm
  · intro rel nUP
    exact List.filter_sublist _

/-- C7.  On a non-empty transaction log in which no non-empty itemset reaches
the support threshold, Stage 1 returns an empty rule list and empty maps, and
Stages 2 and 3 map the empty input to empty output. -/
theorem no_frequent_itemsets_empty_results (txs : List Transaction) (T : ℤ)
    (nUP nA : Rule → Nat) (K : ℚ) (h : txs ≠ [])
    (hno : ∀ s : Finset Atom, s.Nonempty → (countSubset txs s : ℤ) < T) :
    stage1 txs T = ([], [], []) ∧ stage2 [] nUP T K = [] ∧
      stage3 [] nUP nA = [] := by
  have hN : (0 : ℚ) < (txs.length : ℚ) := by
    have hz : txs.length ≠ 0 := fun hc => h (List.length_eq_zero.mp hc)
    exact_mod_cast Nat.pos_of_ne_zero hz
  have hfe : freq_itemset_list txs ((T : ℚ) / (txs.length : ℚ)) = [] := by
    rw [freq_itemset_list, List.filter_eq_nil_iff]
    intro s _
    simp only [Bool.and_eq_true, decide_eq_true_eq]
    rintro ⟨hne, hsup⟩
    have hlt : (countSubset txs s : ℚ) < (T : ℚ) := by
      have hts := hno s hne
      push_cast at hts ⊢
      exact_mod_cast hts
    have hle := (div_le_div_iff_of_pos_right hN).mp hsup
    linarith
  refine ⟨stage1_of_isEmpty txs T ?_, rfl, ?_⟩
  · rw [apriori, hfe]
    rfl
  · simp [stage3, short_rules, subsumed_rules]

/-- Witness for C7: a one-transaction log with `T = 2` has no itemset of
support at least `2`. -/
theorem no_frequent_itemsets_empty_results_witness :
    stage1 [({"a=1"} : Finset String)] 2 = ([], [], []) ∧
      stage2 [] (fun _ => 0) 2 (1 / 2) = [] ∧
      stage3 [] (fun _ => 0) (fun _ => 0) = [] :=
  no_frequent_itemsets_empty_results [({"a=1"} : Finset String)] 2
    (fun _ => 0) (fun _ => 0) (1 / 2) (by simp)
    (fun s _ => by
      have h1 := countSubset_le_length [({"a=1"} : Finset String)] s
      simp only [List.length_cons, List.length_nil] at h1
      omega)

/-- C1.  The mining entry point performs no upfront input validation: on an
empty transaction log it fails with the division-by-zero error from the
`min_support` computation rather than `InvalidInput`, and with `K = 2`
(outside `[0,1]`) a run completes successfully instead of failing. -/
theorem run_algorithm_no_input_validation :
    run_algorithm ([] : List Transaction) 1 (1 / 2)
        = .error .zeroDivisionError ∧
    RunError.zeroDivisionError ≠ RunError.invalidInput ∧
    run_algorithm [({"a=1"} : Finset String)] 1 2
        = .ok ([{"a=1"}], [({"a=1"}, 1)], [({"a=1"}, 1)]) := by
  refine ⟨rfl, by decide, ?_⟩
  simp [run_algorithm, stage1, apriori, freq_itemset_list, vocabulary,
    countSubset, Finset.sort_singleton, stage2, unreliable_rules,
    proves_unreliability, stage3, short_rules, subsumed_rules, nAScan, nAStep]

/-- C9 counterexample: Stage 1 changes the loaded data's set of columns — the
`atoms` column is added — so the loaded data is not left unchanged. -/
theorem stage1_mutates_loaded_columns :
    stage1_data_update ["a"]
        (DataFrame.mk ["a"] [fun _ => CellVal.str "1"])
      ≠ DataFrame.mk ["a"] [fun _ => CellVal.str "1"] := by
  intro hcontra
  have hcols := congrArg DataFrame.cols hcontra
  simp [stage1_data_update] at hcols

/-- C9 amended.  Stage 1 leaves the values of every original column unchanged
in every row, but appends an `atoms` column to the loaded data (when no
`atoms` column was present). -/
theorem stage1_preserves_original_column_values
    (wc : List String) (df : DataFrame) (c : String)
    (hna : "atoms" ∉ df.cols) (hc : c ∈ df.cols) :
    (stage1_data_update wc df).cols = df.cols ++ ["atoms"] ∧
    (stage1_data_update wc df).rows.map (fun r => r c) =
      df.rows.map (fun r => r c) := by
  have hcne : c ≠ "atoms" := fun hh => hna (hh ▸ hc)
  constructor
  · simp [stage1_data_update, hna]
  · simp only [stage1_data_update, List.map_map]
    refine List.map_congr_left (fun r _ => ?_)
    simp [Function.comp, hcne]

/-- Witness for the amended C9 on a one-row, one-column dataframe. -/
theorem stage1_preserves_original_column_values_witness :
    (stage1_data_update ["a"]
        (DataFrame.mk ["a"] [fun _ => CellVal.str "1"])).cols
      = (DataFrame.mk ["a"] [fun _ => CellVal.str "1"]).cols ++ ["atoms"] ∧
    (stage1_data_update ["a"]
        (DataFrame.mk ["a"] [fun _ => CellVal.str "1"])).rows.map
          (fun r => r "a")
      = (DataFrame.mk ["a"] [fun _ => CellVal.str "1"]).rows.map
          (fun r => r "a") :=
  stage1_preserves_original_column_values ["a"]
    (DataFrame.mk ["a"] [fun _ => CellVal.str "1"]) "a"
    (by decide) (by decide)

/-- C10.  The serving-time evaluator does not require exact subset matching:
the two-atom rule `a=1 ∧ b=2` matches a request supplying only `a=1`, and the
evaluator grants that request, although the request's atom set does not
contain all of the rule's atoms. -/
theorem evaluator_partial_match_grants :
    2 ≤ (parse_rule "a=1 ∧ b=2").length ∧
    ¬ ((stringSplitOn "a=1 ∧ b=2" " ∧ ").toFinset ⊆
        (([("a", "1")] : List (String × String)).map
          (fun p => p.1 ++ "=" ++ p.2)).toFinset) ∧
    rule_matches_request "a=1 ∧ b=2" [("a", "1")] = true ∧
    evaluate_request (load_rules ["a=1 ∧ b=2"]) [("a", "1")]
      = ⟨true, some "a=1 ∧ b=2"⟩ :=
  ⟨by decide, by decide, by decide, by decide⟩

end Rhapsody
